import Mathlib

/-!
Shallow embedding of the snowflake ID generator of `src/snowflake.rs`
(`SnowflakeGenerator`): 64-bit two's-complement arithmetic helpers, the
configuration record built by `new`, the pure `compose_id` / `decompose`
bit-layout functions, a fuel-indexed sequential model of the `next_id` /
`next_ids` retry loops over an abstract millisecond clock, and an
interleaved small-step model of concurrent `next_id` callers.

Machine integers are embedded as `Int` (for `i64`) and `Nat` (for `u32`,
`u8`, `usize`), with explicit reduction modulo `2 ^ 64` where the source's
arithmetic can overflow (wrap-around overflow semantics).
-/

set_option maxRecDepth 4000

namespace Idbuilder

/-- Two's-complement bit pattern (a natural number below `2 ^ 64`) of an
`i64` value. `Int.emod` by a positive number is non-negative, so `toNat`
loses nothing. -/
def toBits (x : Int) : Nat := (x % (2 ^ 64 : Int)).toNat

/-- Signed `i64` value denoted by a 64-bit pattern. -/
def ofBits (u : Nat) : Int := if u < 2 ^ 63 then (u : Int) else (u : Int) - 2 ^ 64

/-- Reduce an unbounded integer to the `i64` it denotes under wrap-around
overflow semantics. -/
def wrap64 (x : Int) : Int := ofBits (toBits x)

/-- Wrapping `i64` addition. -/
def add64 (a b : Int) : Int := wrap64 (a + b)

/-- Wrapping `i64` subtraction. -/
def sub64 (a b : Int) : Int := wrap64 (a - b)

/-- Truncating `i64` left shift (`<<` in the source; every shift amount
appearing in the embedded code is below 64). -/
def shl64 (a : Int) (n : Nat) : Int := ofBits ((toBits a <<< n) % 2 ^ 64)

/-- Arithmetic `i64` right shift (`>>` on a signed value), which is exactly
floor division by a power of two and never leaves the `i64` range. -/
def shr64 (a : Int) (n : Nat) : Int := Int.fdiv a (2 ^ n)

/-- Bitwise `i64` and. -/
def and64 (a b : Int) : Int := ofBits (toBits a &&& toBits b)

/-- Bitwise `i64` or. -/
def or64 (a b : Int) : Int := ofBits (toBits a ||| toBits b)

/-- Truncation of an `i64` to its low 32 bits (`as u32` in the source). -/
def u32cast (x : Int) : Nat := (x % (2 ^ 32 : Int)).toNat

/-- Error enumeration of `src/error.rs`. Payloads irrelevant to the
generator (HTTP and JSON errors) are flattened to strings. -/
inductive Error where
  | Http (msg : String)
  | Api (code : Int) (message : String)
  | ConfigNotFound (key : String)
  | Unauthorized
  | Forbidden
  | RateLimited
  | SequenceExhausted (key : String)
  | InvalidConfig (msg : String)
  | ClockMovedBackwards
  | SequenceOverflow
  | Serialization (msg : String)
  | InvalidUrl (url : String)
deriving DecidableEq, Repr

/-- Immutable configuration part of `SnowflakeGenerator`
(`src/snowflake.rs`, lines 27-49). The two atomic cells are modelled
separately by `GenState`. -/
structure SnowflakeGenerator where
  epoch : Int
  worker_id : Nat
  worker_bits : Nat
  sequence_bits : Nat
  max_sequence : Int
deriving DecidableEq, Repr

/-- `SnowflakeGenerator::new` (lines 61-73):
`max_sequence = (1_i64 << sequence_bits) - 1` in `i64` arithmetic. -/
def SnowflakeGenerator.new (worker_id : Nat) (epoch : Int)
    (worker_bits sequence_bits : Nat) : SnowflakeGenerator :=
  { epoch := epoch
    worker_id := worker_id
    worker_bits := worker_bits
    sequence_bits := sequence_bits
    max_sequence := sub64 (shl64 1 sequence_bits) 1 }

/-- The mutable generator state: the two atomic `i64` cells. -/
structure GenState where
  sequence : Int
  last_timestamp : Int
deriving DecidableEq, Repr

/-- Both atomic cells are initialised to zero by `SnowflakeGenerator::new`. -/
def SnowflakeGenerator.initialState : GenState :=
  { sequence := 0, last_timestamp := 0 }

/-- `SnowflakeGenerator::compose_id` (lines 169-176):
`((timestamp - epoch) << ts_shift) | (worker_id << worker_shift) | sequence`
in `i64` arithmetic. -/
def SnowflakeGenerator.compose_id (g : SnowflakeGenerator)
    (timestamp sequence : Int) : Int :=
  let ts_shift := g.worker_bits + g.sequence_bits
  let worker_shift := g.sequence_bits
  or64 (or64 (shl64 (sub64 timestamp g.epoch) ts_shift)
             (shl64 (g.worker_id : Int) worker_shift))
       sequence

/-- `SnowflakeGenerator::decompose` (lines 155-167). The worker component
is truncated `as u32`. -/
def SnowflakeGenerator.decompose (g : SnowflakeGenerator) (id : Int) :
    Int × Nat × Int :=
  let worker_shift := g.sequence_bits
  let ts_shift := g.worker_bits + g.sequence_bits
  let sequence_mask := sub64 (shl64 1 g.sequence_bits) 1
  let worker_mask := sub64 (shl64 1 g.worker_bits) 1
  let sequence := and64 id sequence_mask
  let worker_id := u32cast (and64 (shr64 id worker_shift) worker_mask)
  let timestamp := add64 (shr64 id ts_shift) g.epoch
  (timestamp, worker_id, sequence)

/-- Abstract clock: the value produced by the `k`-th call to
`SystemTime::now().duration_since(UNIX_EPOCH)` during a run, `none` when
the system time is before the Unix epoch. -/
def Clock : Type := Nat → Option Int

/-- `SnowflakeGenerator::current_timestamp` (lines 179-184): a
`duration_since` failure is mapped to `Error::ClockMovedBackwards`. -/
def current_timestamp (clock : Clock) (k : Nat) : Except Error Int :=
  match clock k with
  | none => .error .ClockMovedBackwards
  | some ms => .ok ms

/-- `SnowflakeGenerator::wait_next_millis` (lines 186-194): poll the clock
until it reports a value strictly greater than `current_ts`. The unbounded
source loop is indexed by fuel (`none` = still spinning after `fuel`
polls); the second result component is the next unconsumed clock index. -/
def wait_next_millis (clock : Clock) (current_ts : Int) :
    Nat → Nat → Option (Except Error Int × Nat)
  | _, 0 => none
  | k, fuel + 1 =>
    match current_timestamp clock k with
    | .error e => some (.error e, k + 1)
    | .ok ts =>
      if ts > current_ts then some (.ok ts, k + 1)
      else wait_next_millis clock current_ts (k + 1) fuel

/-- Sequential (single-caller) model of `SnowflakeGenerator::next_id`
(lines 86-119). One fuel unit is spent per iteration of the outer `loop`;
`none` means the fuel ran out. With a single caller nothing intervenes
between the `last_timestamp` load and the `compare_exchange` on it, so the
CAS in the new-millisecond branch always succeeds; the interleaved model
below (`threadStep`) has the failing case. The `fetch_add` in the
same-millisecond branch yields the pre-increment value `seq` and leaves the
cell at `seq + 1` (wrapping). -/
def next_id (g : SnowflakeGenerator) (clock : Clock) :
    Nat → GenState → Nat → Option (Except Error Int × GenState × Nat)
  | 0, _, _ => none
  | fuel + 1, st, k =>
    match current_timestamp clock k with
    | .error e => some (.error e, st, k + 1)
    | .ok timestamp =>
      let last_ts := st.last_timestamp
      if timestamp < last_ts then
        some (.error .ClockMovedBackwards, st, k + 1)
      else if timestamp = last_ts then
        let seq := st.sequence
        let st1 : GenState := { st with sequence := add64 seq 1 }
        if seq ≤ g.max_sequence then
          some (.ok (g.compose_id timestamp seq), st1, k + 1)
        else
          match wait_next_millis clock timestamp (k + 1) fuel with
          | none => none
          | some (.error e, k1) => some (.error e, st1, k1)
          | some (.ok _, k1) => next_id g clock fuel st1 k1
      else
        some (.ok (g.compose_id timestamp 0),
              { sequence := 1, last_timestamp := timestamp }, k + 1)

/-- `SnowflakeGenerator::next_ids` (lines 130-136): `count` sequential
`next_id` calls; the first failure aborts the whole call through `?`,
discarding the vector built so far. -/
def next_ids (g : SnowflakeGenerator) (clock : Clock) (fuel : Nat) :
    Nat → GenState → Nat → Option (Except Error (List Int) × GenState × Nat)
  | 0, st, k => some (.ok [], st, k)
  | count + 1, st, k =>
    match next_id g clock fuel st k with
    | none => none
    | some (.error e, st1, k1) => some (.error e, st1, k1)
    | some (.ok id, st1, k1) =>
      match next_ids g clock fuel count st1 k1 with
      | none => none
      | some (.error e, st2, k2) => some (.error e, st2, k2)
      | some (.ok ids, st2, k2) => some (.ok (id :: ids), st2, k2)

deriving instance DecidableEq for Except

/-- Program counter of one thread executing the body of `next_id` in the
interleaved model. Each constructor names the next atomic access the thread
will perform on the shared cells or the clock; the pure branch decisions
that follow an access are folded into that access's step.

* `start` — about to read the clock at the top of the `loop`;
* `loadL t` — holds the clock value `t`, about to load `last_timestamp`
  with acquire ordering and branch on the comparison (lines 89-93);
* `fadd t` — took the `timestamp == last_ts` branch, about to `fetch_add`
  the sequence cell (line 97);
* `cas t L` — took the `timestamp > last_ts` branch, about to
  `compare_exchange` `last_timestamp` from the loaded `L` to `t`
  (lines 108-111);
* `storeSeq t` — its CAS succeeded, about to `store(1)` into the sequence
  cell and return the ID composed for sequence value 0 (lines 113-114);
* `wait t` — exhausted the sequence for millisecond `t`, spinning in
  `wait_next_millis` (lines 186-194);
* `done r` — the call returned `r`. -/
inductive PC where
  | start
  | loadL (t : Int)
  | fadd (t : Int)
  | cas (t L : Int)
  | storeSeq (t : Int)
  | wait (t : Int)
  | done (r : Except Error Int)
deriving DecidableEq, Repr

/-- Shared state of the interleaved model: the clock (set arbitrarily by
the scheduler, since monotonicity of the system clock is not assumed), the
two atomic cells, and the program counter of every thread. -/
structure Sys where
  clock : Int
  last : Int
  seq : Int
  threads : List PC
deriving DecidableEq, Repr

/-- One atomic action of a single thread of `next_id`, given the current
clock value `c` and cell values `L` (`last_timestamp`) and `S`
(`sequence`). Returns the new program counter and the new cell values. -/
def threadStep (g : SnowflakeGenerator) (c L S : Int) : PC → PC × Int × Int
  | .start => (.loadL c, L, S)
  | .loadL t =>
    if t < L then (.done (.error .ClockMovedBackwards), L, S)
    else if t = L then (.fadd t, L, S)
    else (.cas t L, L, S)
  | .fadd t =>
    if S ≤ g.max_sequence then (.done (.ok (g.compose_id t S)), L, add64 S 1)
    else (.wait t, L, add64 S 1)
  | .cas t Lv => if L = Lv then (.storeSeq t, t, S) else (.start, L, S)
  | .storeSeq t => (.done (.ok (g.compose_id t 0)), L, 1)
  | .wait t => (if t < c then .start else .wait t, L, S)
  | .done r => (.done r, L, S)

/-- A scheduler decision: let thread `i` perform its next atomic action, or
let the system clock move to value `c`. -/
inductive Choice where
  | thr (i : Nat)
  | tick (c : Int)
deriving DecidableEq, Repr

/-- Interleaved system step. -/
def sysStep (g : SnowflakeGenerator) (s : Sys) : Choice → Sys
  | .tick c => { s with clock := c }
  | .thr i =>
    match s.threads[i]? with
    | none => s
    | some pc =>
      let r := threadStep g s.clock s.last s.seq pc
      { s with last := r.2.1, seq := r.2.2, threads := s.threads.set i r.1 }

/-- Run the interleaved system under an explicit schedule. -/
def run (g : SnowflakeGenerator) : Sys → List Choice → Sys
  | s, [] => s
  | s, c :: cs => run g (sysStep g s c) cs

/-! Basic facts about the 64-bit helpers on their in-range domains. -/

lemma toBits_of_nonneg {x : Int} (h0 : 0 ≤ x) (h1 : x < 2 ^ 64) :
    (toBits x : Int) = x := by
  unfold toBits
  rw [Int.emod_eq_of_lt h0 h1, Int.toNat_of_nonneg h0]

lemma toBits_toNat {x : Int} (h0 : 0 ≤ x) (h1 : x < 2 ^ 64) :
    toBits x = x.toNat := by
  unfold toBits
  rw [Int.emod_eq_of_lt h0 h1]

lemma ofBits_of_lt {u : Nat} (h : u < 2 ^ 63) : ofBits u = (u : Int) := by
  unfold ofBits
  rw [if_pos h]

lemma wrap64_eq {x : Int} (h0 : -(2 ^ 63) ≤ x) (h1 : x < 2 ^ 63) :
    wrap64 x = x := by
  unfold wrap64 ofBits toBits
  split <;> omega

lemma add64_eq {a b : Int} (h0 : -(2 ^ 63) ≤ a + b) (h1 : a + b < 2 ^ 63) :
    add64 a b = a + b := wrap64_eq h0 h1

lemma sub64_eq {a b : Int} (h0 : -(2 ^ 63) ≤ a - b) (h1 : a - b < 2 ^ 63) :
    sub64 a b = a - b := wrap64_eq h0 h1

lemma shr64_eq (x : Int) (n : Nat) : shr64 x n = x / 2 ^ n :=
  Int.fdiv_eq_ediv x (by positivity)

lemma shl64_eq {x : Int} {n : Nat} (h0 : 0 ≤ x) (h1 : x * 2 ^ n < 2 ^ 63) :
    shl64 x n = x * 2 ^ n := by
  have hpow : (0 : Int) < 2 ^ n := by positivity
  have hx63 : x < 2 ^ 63 := by
    calc x = x * 1 := (mul_one x).symm
    _ ≤ x * 2 ^ n := by
      apply mul_le_mul_of_nonneg_left _ h0
      omega
    _ < 2 ^ 63 := h1
  unfold shl64
  rw [toBits_toNat h0 (by omega), Nat.shiftLeft_eq]
  have hcast : ((x.toNat * 2 ^ n : Nat) : Int) = x * 2 ^ n := by
    push_cast [Int.toNat_of_nonneg h0]
    ring
  have hnat : x.toNat * 2 ^ n < 2 ^ 63 := by
    have : ((x.toNat * 2 ^ n : Nat) : Int) < ((2 ^ 63 : Nat) : Int) := by
      rw [hcast]; push_cast; exact h1
    exact_mod_cast this
  rw [Nat.mod_eq_of_lt (lt_trans hnat (by norm_num)), ofBits_of_lt hnat, hcast]

lemma and64_eq {a b : Int} (ha0 : 0 ≤ a) (ha1 : a < 2 ^ 63)
    (hb0 : 0 ≤ b) (hb1 : b < 2 ^ 63) :
    and64 a b = ((a.toNat &&& b.toNat : Nat) : Int) := by
  unfold and64
  rw [toBits_toNat ha0 (by omega), toBits_toNat hb0 (by omega)]
  refine ofBits_of_lt ?_
  calc a.toNat &&& b.toNat ≤ a.toNat := Nat.and_le_left
  _ < 2 ^ 63 := by omega

lemma or64_eq {a b : Int} (ha0 : 0 ≤ a) (ha1 : a < 2 ^ 63)
    (hb0 : 0 ≤ b) (hb1 : b < 2 ^ 63) :
    or64 a b = ((a.toNat ||| b.toNat : Nat) : Int) := by
  unfold or64
  rw [toBits_toNat ha0 (by omega), toBits_toNat hb0 (by omega)]
  refine ofBits_of_lt (Nat.or_lt_two_pow ?_ ?_) <;> omega

/-- The `(1_i64 << bits) - 1` mask formula evaluates, in wrapping `i64`
arithmetic, to the mathematical `2 ^ bits - 1` for every `bits ≤ 63`
(at `bits = 63` both overflows cancel out). -/
lemma mask_eq {n : Nat} (h : n ≤ 63) : sub64 (shl64 1 n) 1 = 2 ^ n - 1 := by
  rcases Nat.lt_or_ge n 63 with hn | hn
  · have hpow : (2 : Int) ^ n < 2 ^ 63 := by
      exact_mod_cast pow_lt_pow_right₀ (by norm_num) hn
    have h1 : shl64 1 n = 2 ^ n := by
      have := shl64_eq (x := 1) (n := n) (by norm_num) (by rwa [one_mul])
      rwa [one_mul] at this
    rw [h1]
    refine sub64_eq ?_ ?_ <;> have : (0 : Int) < 2 ^ n := by positivity
    · omega
    · omega
  · have hn' : n = 63 := le_antisymm h hn
    subst hn'
    decide

/-- Disjoint bit fields: with the worker and sequence components inside
their widths, the two nested ors of the composition are plain addition. -/
lemma nat_fields_or (D W S wb sb : Nat) (hW : W < 2 ^ wb) (hS : S < 2 ^ sb) :
    (D * 2 ^ (wb + sb)) ||| (W * 2 ^ sb) ||| S
      = D * 2 ^ (wb + sb) + W * 2 ^ sb + S := by
  have hWs : W * 2 ^ sb < 2 ^ (wb + sb) := by
    rw [pow_add]
    exact mul_lt_mul_of_pos_right hW (Nat.pos_pow_of_pos sb (by norm_num))
  have h1 : D * 2 ^ (wb + sb) ||| W * 2 ^ sb
      = D * 2 ^ (wb + sb) + W * 2 ^ sb := by
    rw [mul_comm D]
    exact (Nat.mul_add_lt_is_or hWs D).symm
  have hfac : D * 2 ^ (wb + sb) + W * 2 ^ sb = 2 ^ sb * (2 ^ wb * D + W) := by
    rw [pow_add]; ring
  rw [h1, hfac]
  exact (Nat.mul_add_lt_is_or hS (2 ^ wb * D + W)).symm

/-- With every field in range, `compose_id` is the plain sum
`(t - epoch) * 2 ^ (worker_bits + sequence_bits)
 + worker_id * 2 ^ sequence_bits + s`, and in particular non-negative and
below `2 ^ 63`. -/
lemma compose_arith (g : SnowflakeGenerator) {t s : Int}
    (hbits : g.worker_bits + g.sequence_bits ≤ 63)
    (hd0 : 0 ≤ t - g.epoch)
    (hd1 : t - g.epoch < 2 ^ (63 - (g.worker_bits + g.sequence_bits)))
    (hw : g.worker_id < 2 ^ g.worker_bits)
    (hs0 : 0 ≤ s) (hs1 : s < 2 ^ g.sequence_bits) :
    g.compose_id t s =
      (t - g.epoch) * 2 ^ (g.worker_bits + g.sequence_bits)
        + (g.worker_id : Int) * 2 ^ g.sequence_bits + s := by
  set wb := g.worker_bits with hwb
  set sb := g.sequence_bits with hsb
  set A := wb + sb with hA
  set D := t - g.epoch with hD
  have h2A : (2 : Int) ^ (63 - A) * 2 ^ A = 2 ^ 63 := by
    rw [← pow_add, Nat.sub_add_cancel hbits]
  have hApos : (0 : Int) < 2 ^ A := by positivity
  have hsbpos : (0 : Int) < 2 ^ sb := by positivity
  have hA63 : (2 : Int) ^ A ≤ 2 ^ 63 :=
    pow_le_pow_right₀ (by norm_num) hbits
  have hsbA : (2 : Int) ^ sb ≤ 2 ^ A :=
    pow_le_pow_right₀ (by norm_num) (by omega)
  have hDA : D * 2 ^ A < 2 ^ 63 := by
    calc D * 2 ^ A < 2 ^ (63 - A) * 2 ^ A :=
      mul_lt_mul_of_pos_right hd1 hApos
    _ = 2 ^ 63 := h2A
  have hwInt : (g.worker_id : Int) < 2 ^ wb := by exact_mod_cast hw
  have hWs : (g.worker_id : Int) * 2 ^ sb < 2 ^ A := by
    calc (g.worker_id : Int) * 2 ^ sb < 2 ^ wb * 2 ^ sb :=
      mul_lt_mul_of_pos_right hwInt hsbpos
    _ = 2 ^ A := by rw [← pow_add]
  have hD63 : D < 2 ^ 63 := by
    have : (2 : Int) ^ (63 - A) ≤ 2 ^ 63 :=
      pow_le_pow_right₀ (by norm_num) (by omega)
    omega
  have hsub : sub64 t g.epoch = D := sub64_eq (by omega) hD63
  have hshlD : shl64 D A = D * 2 ^ A := shl64_eq hd0 hDA
  have hshlW : shl64 (g.worker_id : Int) sb = (g.worker_id : Int) * 2 ^ sb :=
    shl64_eq (by positivity) (lt_of_lt_of_le hWs hA63)
  have hDApos : 0 ≤ D * 2 ^ A := by positivity
  have hWspos : 0 ≤ (g.worker_id : Int) * 2 ^ sb := by positivity
  have hor1 : or64 (D * 2 ^ A) ((g.worker_id : Int) * 2 ^ sb)
      = (((D * 2 ^ A).toNat ||| ((g.worker_id : Int) * 2 ^ sb).toNat : Nat) : Int) :=
    or64_eq hDApos hDA hWspos (lt_of_lt_of_le hWs hA63)
  have hDtn : (D * 2 ^ A).toNat = D.toNat * 2 ^ A := by
    have : D * 2 ^ A = (D.toNat : Int) * ((2 ^ A : Nat) : Int) := by
      push_cast [Int.toNat_of_nonneg hd0]; ring
    rw [this, ← Int.natCast_mul, Int.toNat_natCast]
  have hWtn : ((g.worker_id : Int) * 2 ^ sb).toNat = g.worker_id * 2 ^ sb := by
    have : (g.worker_id : Int) * 2 ^ sb = ((g.worker_id * 2 ^ sb : Nat) : Int) := by
      push_cast; ring
    rw [this, Int.toNat_natCast]
  have hsum1pos : 0 ≤ D * 2 ^ A + (g.worker_id : Int) * 2 ^ sb := by positivity
  have hsum1lt : D * 2 ^ A + (g.worker_id : Int) * 2 ^ sb < 2 ^ 63 := by
    have e1 : D * 2 ^ A ≤ 2 ^ 63 - 2 ^ A := by
      have : (D + 1) * 2 ^ A ≤ 2 ^ (63 - A) * 2 ^ A :=
        mul_le_mul_of_nonneg_right (by omega) (le_of_lt hApos)
      rw [h2A] at this
      nlinarith
    omega
  have hor2 : or64 (D * 2 ^ A + (g.worker_id : Int) * 2 ^ sb) s
      = (((D * 2 ^ A + (g.worker_id : Int) * 2 ^ sb).toNat ||| s.toNat : Nat) : Int) :=
    or64_eq hsum1pos hsum1lt hs0 (lt_of_lt_of_le hs1 (le_trans hsbA hA63))
  have hsum1tn : (D * 2 ^ A + (g.worker_id : Int) * 2 ^ sb).toNat
      = D.toNat * 2 ^ A + g.worker_id * 2 ^ sb := by
    have : D * 2 ^ A + (g.worker_id : Int) * 2 ^ sb
        = ((D.toNat * 2 ^ A + g.worker_id * 2 ^ sb : Nat) : Int) := by
      push_cast [Int.toNat_of_nonneg hd0]; ring
    rw [this, Int.toNat_natCast]
  have hstn : s.toNat < 2 ^ sb := by
    have := Int.toNat_of_nonneg hs0
    have hcast : ((s.toNat : Nat) : Int) < (((2 : Nat) ^ sb : Nat) : Int) := by
      push_cast; omega
    exact_mod_cast hcast
  have hwn : g.worker_id < 2 ^ wb := hw
  show or64 (or64 (shl64 (sub64 t g.epoch) A) (shl64 (g.worker_id : Int) sb)) s = _
  rw [hsub, hshlD, hshlW, hor1, hDtn, hWtn]
  have hmid : ((D.toNat * 2 ^ A ||| g.worker_id * 2 ^ sb : Nat) : Int)
      = D * 2 ^ A + (g.worker_id : Int) * 2 ^ sb := by
    have hdis : (D.toNat * 2 ^ A) ||| (g.worker_id * 2 ^ sb)
        = D.toNat * 2 ^ A + g.worker_id * 2 ^ sb := by
      have h2 : D.toNat * 2 ^ A ||| g.worker_id * 2 ^ sb ||| 0
          = D.toNat * 2 ^ A + g.worker_id * 2 ^ sb + 0 :=
        nat_fields_or D.toNat g.worker_id 0 wb sb hwn
          (Nat.pos_pow_of_pos sb (by norm_num))
      simpa using h2
    rw [hdis]
    push_cast [Int.toNat_of_nonneg hd0]
    ring
  rw [hmid, hor2, hsum1tn]
  have hfin : (D.toNat * 2 ^ A + g.worker_id * 2 ^ sb) ||| s.toNat
      = D.toNat * 2 ^ A + g.worker_id * 2 ^ sb + s.toNat := by
    have := nat_fields_or D.toNat g.worker_id s.toNat wb sb hwn hstn
    have hor : D.toNat * 2 ^ A ||| g.worker_id * 2 ^ sb
        = D.toNat * 2 ^ A + g.worker_id * 2 ^ sb := by
      have h2 : D.toNat * 2 ^ A ||| g.worker_id * 2 ^ sb ||| 0
          = D.toNat * 2 ^ A + g.worker_id * 2 ^ sb + 0 :=
        nat_fields_or D.toNat g.worker_id 0 wb sb hwn
          (Nat.pos_pow_of_pos sb (by norm_num))
      simpa using h2
    rw [hor] at this
    exact this
  rw [hfin]
  push_cast [Int.toNat_of_nonneg hd0, Int.toNat_of_nonneg hs0]
  ring

/-- Applying `decompose` to an in-range composed sum recovers the original
triple. -/
lemma decompose_arith (g : SnowflakeGenerator) {t s : Int}
    (hbits : g.worker_bits + g.sequence_bits ≤ 63)
    (hd0 : 0 ≤ t - g.epoch)
    (hd1 : t - g.epoch < 2 ^ (63 - (g.worker_bits + g.sequence_bits)))
    (hw : g.worker_id < 2 ^ g.worker_bits) (hw32 : g.worker_id < 2 ^ 32)
    (ht0 : -(2 ^ 63) ≤ t) (ht1 : t < 2 ^ 63)
    (hs0 : 0 ≤ s) (hs1 : s < 2 ^ g.sequence_bits) :
    g.decompose
      ((t - g.epoch) * 2 ^ (g.worker_bits + g.sequence_bits)
        + (g.worker_id : Int) * 2 ^ g.sequence_bits + s)
      = (t, g.worker_id, s) := by
  set wb := g.worker_bits with hwb
  set sb := g.sequence_bits with hsb
  set A := wb + sb with hA
  set D := t - g.epoch with hD
  set W : Int := (g.worker_id : Int) with hW
  set N : Int := D * 2 ^ A + W * 2 ^ sb + s with hN
  have h2A : (2 : Int) ^ (63 - A) * 2 ^ A = 2 ^ 63 := by
    rw [← pow_add, Nat.sub_add_cancel hbits]
  have hApos : (0 : Int) < 2 ^ A := by positivity
  have hsbpos : (0 : Int) < 2 ^ sb := by positivity
  have hwbpos : (0 : Int) < 2 ^ wb := by positivity
  have hA63 : (2 : Int) ^ A ≤ 2 ^ 63 :=
    pow_le_pow_right₀ (by norm_num) hbits
  have hsbA : (2 : Int) ^ sb ≤ 2 ^ A :=
    pow_le_pow_right₀ (by norm_num) (by omega)
  have hwInt : W < 2 ^ wb := by rw [hW]; exact_mod_cast hw
  have hW0 : 0 ≤ W := by rw [hW]; positivity
  have hwb63 : (2 : Int) ^ wb ≤ 2 ^ 63 :=
    pow_le_pow_right₀ (by norm_num) (by omega)
  have hWs : W * 2 ^ sb < 2 ^ A := by
    calc W * 2 ^ sb < 2 ^ wb * 2 ^ sb := mul_lt_mul_of_pos_right hwInt hsbpos
    _ = 2 ^ A := by rw [← pow_add]
  have hlow : 0 ≤ W * 2 ^ sb + s ∧ W * 2 ^ sb + s < 2 ^ A := by
    constructor
    · positivity
    · have e1 : (W + 1) * 2 ^ sb ≤ 2 ^ wb * 2 ^ sb :=
        mul_le_mul_of_nonneg_right (by omega) (le_of_lt hsbpos)
      rw [← pow_add] at e1
      nlinarith
  have hN0 : 0 ≤ N := by positivity
  have hN1 : N < 2 ^ 63 := by
    have e1 : (D + 1) * 2 ^ A ≤ 2 ^ (63 - A) * 2 ^ A :=
      mul_le_mul_of_nonneg_right (by omega) (le_of_lt hApos)
    rw [h2A] at e1
    nlinarith [hlow.2]
  -- the three projections
  have hts : shr64 N A = D := by
    rw [shr64_eq]
    have : N = (W * 2 ^ sb + s) + D * 2 ^ A := by rw [hN]; ring
    rw [this, Int.add_mul_ediv_right _ _ (ne_of_gt hApos),
      Int.ediv_eq_zero_of_lt hlow.1 hlow.2, zero_add]
  have hseq : and64 N (sub64 (shl64 1 sb) 1) = s := by
    rw [mask_eq (by omega)]
    have hmlt : (2 : Int) ^ sb - 1 < 2 ^ 63 := by omega
    rw [and64_eq hN0 hN1 (by omega) hmlt]
    have hmtn : ((2 : Int) ^ sb - 1).toNat = 2 ^ sb - 1 := by
      have h1 : (1 : Nat) ≤ 2 ^ sb := Nat.one_le_two_pow
      have : ((2 ^ sb - 1 : Nat) : Int) = (2 : Int) ^ sb - 1 := by
        push_cast [h1]; ring
      rw [← this, Int.toNat_natCast]
    rw [hmtn, Nat.and_pow_two_sub_one_eq_mod]
    have hNtn : N.toNat = (D.toNat * 2 ^ wb + g.worker_id) * 2 ^ sb + s.toNat := by
      have : N = (((D.toNat * 2 ^ wb + g.worker_id) * 2 ^ sb + s.toNat : Nat) : Int) := by
        push_cast [Int.toNat_of_nonneg hd0, Int.toNat_of_nonneg hs0]
        rw [hN, hA, pow_add]; ring
      rw [this, Int.toNat_natCast]
    have hstn : s.toNat < 2 ^ sb := by
      have hcast : ((s.toNat : Nat) : Int) < (((2 : Nat) ^ sb : Nat) : Int) := by
        push_cast [Int.toNat_of_nonneg hs0]; omega
      exact_mod_cast hcast
    rw [hNtn, mul_comm (D.toNat * 2 ^ wb + g.worker_id) (2 ^ sb),
      Nat.mul_add_mod, Nat.mod_eq_of_lt hstn, Int.toNat_of_nonneg hs0]
  have hwork : u32cast (and64 (shr64 N sb) (sub64 (shl64 1 wb) 1)) = g.worker_id := by
    have hdivN : shr64 N sb = D * 2 ^ wb + W := by
      rw [shr64_eq]
      have : N = s + (D * 2 ^ wb + W) * 2 ^ sb := by
        rw [hN, hA, pow_add]; ring
      rw [this, Int.add_mul_ediv_right _ _ (ne_of_gt hsbpos),
        Int.ediv_eq_zero_of_lt hs0 hs1, zero_add]
    have hX0 : 0 ≤ D * 2 ^ wb + W := by positivity
    have hX1 : D * 2 ^ wb + W < 2 ^ 63 := by
      have hle : (D * 2 ^ wb + W) ≤ (D * 2 ^ wb + W) * 2 ^ sb := by
        apply le_mul_of_one_le_right hX0
        omega
      have hXs : (D * 2 ^ wb + W) * 2 ^ sb = D * 2 ^ A + W * 2 ^ sb := by
        rw [hA, pow_add]; ring
      have hNval : N = D * 2 ^ A + W * 2 ^ sb + s := hN
      linarith
    rw [hdivN, mask_eq (by omega), and64_eq hX0 hX1 (by omega) (by omega)]
    have hmtn : ((2 : Int) ^ wb - 1).toNat = 2 ^ wb - 1 := by
      have h1 : (1 : Nat) ≤ 2 ^ wb := Nat.one_le_two_pow
      have : ((2 ^ wb - 1 : Nat) : Int) = (2 : Int) ^ wb - 1 := by
        push_cast [h1]; ring
      rw [← this, Int.toNat_natCast]
    have hXtn : (D * 2 ^ wb + W).toNat = D.toNat * 2 ^ wb + g.worker_id := by
      have : D * 2 ^ wb + W = ((D.toNat * 2 ^ wb + g.worker_id : Nat) : Int) := by
        push_cast [Int.toNat_of_nonneg hd0]; ring
      rw [this, Int.toNat_natCast]
    rw [hmtn, hXtn, Nat.and_pow_two_sub_one_eq_mod, Nat.mul_comm (D.toNat) (2 ^ wb),
      Nat.mul_add_mod, Nat.mod_eq_of_lt hw]
    unfold u32cast
    have hcast : ((g.worker_id : Nat) : Int) % (2 ^ 32 : Int) = (g.worker_id : Int) := by
      apply Int.emod_eq_of_lt (by positivity)
      exact_mod_cast hw32
    rw [hcast, Int.toNat_natCast]
  have htime : add64 (shr64 N A) g.epoch = t := by
    rw [hts]
    have : D + g.epoch = t := by rw [hD]; ring
    rw [add64, this]
    exact wrap64_eq ht0 ht1
  show (add64 (shr64 N A) g.epoch,
        u32cast (and64 (shr64 N sb) (sub64 (shl64 1 wb) 1)),
        and64 N (sub64 (shl64 1 sb) 1)) = (t, g.worker_id, s)
  rw [htime, hwork, hseq]

/-- C2: for every configuration and every timestamp, worker id and
sequence value that fit within the configured bit widths (timestamp delta
in `[0, 2 ^ (63 - worker_bits - sequence_bits))`, worker id below
`2 ^ worker_bits`, sequence below `2 ^ sequence_bits`), decomposing the
composed ID recovers exactly the original `(timestamp, worker_id,
sequence)` triple. The worker id is a `u32` and the timestamp an `i64`,
whence the two typing bounds. -/
theorem C2_compose_decompose_round_trip
    (worker_id : Nat) (epoch : Int) (worker_bits sequence_bits : Nat)
    (t s : Int)
    (hbits : worker_bits + sequence_bits ≤ 63)
    (hd0 : 0 ≤ t - epoch)
    (hd1 : t - epoch < 2 ^ (63 - (worker_bits + sequence_bits)))
    (hw : worker_id < 2 ^ worker_bits) (hw32 : worker_id < 2 ^ 32)
    (ht0 : -(2 ^ 63) ≤ t) (ht1 : t < 2 ^ 63)
    (hs0 : 0 ≤ s) (hs1 : s < 2 ^ sequence_bits) :
    (SnowflakeGenerator.new worker_id epoch worker_bits sequence_bits).decompose
      ((SnowflakeGenerator.new worker_id epoch worker_bits
        sequence_bits).compose_id t s)
      = (t, worker_id, s) := by
  rw [compose_arith _ hbits hd0 hd1 hw hs0 hs1]
  exact decompose_arith _ hbits hd0 hd1 hw hw32 ht0 ht1 hs0 hs1

/-- Witness for C2 at the concrete scenario configuration of the spec. -/
theorem C2_compose_decompose_round_trip_witness :
    (SnowflakeGenerator.new 42 1704067200000 10 12).decompose
      ((SnowflakeGenerator.new 42 1704067200000 10 12).compose_id
        1704067200100 7)
      = (1704067200100, 42, 7) :=
  C2_compose_decompose_round_trip 42 1704067200000 10 12 1704067200100 7
    (by norm_num) (by norm_num) (by norm_num) (by norm_num) (by norm_num)
    (by norm_num) (by norm_num) (by norm_num) (by norm_num)

/-- C8: construction never fails on the declared ranges. In the model
`new` is a total function: for every `u32` worker id, `i64` epoch and bit
widths in `0..64` it returns the generator record with exactly the given
fields, and the derived `max_sequence` equals `2 ^ sequence_bits - 1` (at
`sequence_bits = 63` the two `i64` overflows of `(1 << 63) - 1` cancel
under the wrap-around semantics). -/
theorem C8_construction_total
    (worker_id : Nat) (epoch : Int) (worker_bits sequence_bits : Nat)
    (hw32 : worker_id < 2 ^ 32)
    (he0 : -(2 ^ 63) ≤ epoch) (he1 : epoch < 2 ^ 63)
    (hwb : worker_bits < 64) (hsb : sequence_bits < 64) :
    SnowflakeGenerator.new worker_id epoch worker_bits sequence_bits =
      { epoch := epoch
        worker_id := worker_id
        worker_bits := worker_bits
        sequence_bits := sequence_bits
        max_sequence := 2 ^ sequence_bits - 1 } := by
  unfold SnowflakeGenerator.new
  have hmax := mask_eq (n := sequence_bits) (by omega)
  rw [hmax]

/-- Witness for C8 at the extreme `sequence_bits = 63`, where the `i64`
computation of `max_sequence` overflows twice and still yields
`2 ^ 63 - 1`. -/
theorem C8_construction_total_witness :
    SnowflakeGenerator.new 1 1704067200000 0 63 =
      { epoch := 1704067200000
        worker_id := 1
        worker_bits := 0
        sequence_bits := 63
        max_sequence := 2 ^ 63 - 1 } :=
  C8_construction_total 1 1704067200000 0 63 (by norm_num) (by norm_num)
    (by norm_num) (by norm_num) (by norm_num)

/-! Pattern-level facts, needed where a composed value may overflow the
`i64` range (out-of-range worker ids, claim C10). -/

lemma toBits_lt (x : Int) : toBits x < 2 ^ 64 := by
  unfold toBits
  have h1 : x % (2 ^ 64 : Int) < 2 ^ 64 := Int.emod_lt_of_pos x (by norm_num)
  omega

lemma toBits_cast_eq (x : Int) : (toBits x : Int) = x % 2 ^ 64 := by
  unfold toBits
  have h0 : (0 : Int) ≤ x % 2 ^ 64 := Int.emod_nonneg x (by norm_num)
  omega

lemma toBits_ofBits {u : Nat} (h : u < 2 ^ 64) : toBits (ofBits u) = u := by
  unfold toBits ofBits
  split <;> omega

lemma ofBits_lb (u : Nat) : -(2 ^ 63) ≤ ofBits u := by
  unfold ofBits
  split <;> omega

lemma ofBits_ub {u : Nat} (h : u < 2 ^ 64) : ofBits u < 2 ^ 63 := by
  unfold ofBits
  split <;> omega

/-- Reducing a 64-bit value modulo a smaller power of two sees only its
bit pattern. -/
lemma ofBits_emod {u : Nat} {n : Nat} (hn : n ≤ 64) :
    ofBits u % 2 ^ n = ((u % 2 ^ n : Nat) : Int) := by
  have hsplit : (2 : Int) ^ (64 - n) * 2 ^ n = 2 ^ 64 := by
    rw [← pow_add, Nat.sub_add_cancel hn]
  have hcast : ((u % 2 ^ n : Nat) : Int) = (u : Int) % 2 ^ n := by
    push_cast; ring_nf
  unfold ofBits
  split
  · rw [hcast]
  · rw [hcast]
    have hrw : (u : Int) - 2 ^ 64 = u + (-(2 ^ (64 - n))) * 2 ^ n := by
      rw [neg_mul, hsplit]; ring
    rw [hrw, Int.add_mul_emod_self]

/-- Dividing a 64-bit value by `2 ^ sb` and reducing modulo `2 ^ wb`,
with both fields inside the 64 bits, sees only its bit pattern. -/
lemma ofBits_ediv_emod {u sb wb : Nat} (hn : wb + sb ≤ 64) :
    (ofBits u / 2 ^ sb) % 2 ^ wb = ((u / 2 ^ sb % 2 ^ wb : Nat) : Int) := by
  have hsbpos : (0 : Int) < 2 ^ sb := by positivity
  have hcast : ((u / 2 ^ sb % 2 ^ wb : Nat) : Int)
      = ((u : Int) / 2 ^ sb) % 2 ^ wb := by
    push_cast; ring_nf
  unfold ofBits
  split
  · rw [hcast]
  · rw [hcast]
    have hsplit : (2 : Int) ^ (64 - sb) * 2 ^ sb = 2 ^ 64 := by
      rw [← pow_add, Nat.sub_add_cancel (by omega)]
    have hrw : (u : Int) - 2 ^ 64 = u + (-(2 ^ (64 - sb))) * 2 ^ sb := by
      rw [neg_mul, hsplit]; ring
    rw [hrw, Int.add_mul_ediv_right _ _ (ne_of_gt hsbpos)]
    have hsplit2 : (2 : Int) ^ (64 - sb - wb) * 2 ^ wb = 2 ^ (64 - sb) := by
      rw [← pow_add]
      congr 1
      omega
    have hrw2 : (u : Int) / 2 ^ sb + -(2 ^ (64 - sb))
        = (u : Int) / 2 ^ sb + (-(2 ^ (64 - sb - wb))) * 2 ^ wb := by
      rw [neg_mul, hsplit2]
    rw [hrw2, Int.add_mul_emod_self]

/-- Reduction modulo a power of two distributes over bitwise or. -/
lemma lor_mod_two_pow (a b k : Nat) :
    (a ||| b) % 2 ^ k = (a % 2 ^ k) ||| (b % 2 ^ k) := by
  apply Nat.eq_of_testBit_eq
  intro i
  simp [Nat.testBit_mod_two_pow, Nat.testBit_lor, Bool.and_or_distrib_left]

/-- Division by a power of two distributes over bitwise or. -/
lemma lor_div_two_pow (a b k : Nat) :
    (a ||| b) / 2 ^ k = (a / 2 ^ k) ||| (b / 2 ^ k) := by
  apply Nat.eq_of_testBit_eq
  intro i
  rw [← Nat.shiftRight_eq_div_pow, ← Nat.shiftRight_eq_div_pow,
    ← Nat.shiftRight_eq_div_pow]
  simp [Nat.testBit_shiftRight, Nat.testBit_lor]

/-- The `& ((1 << k) - 1)` mask of `decompose` is reduction modulo
`2 ^ k`, for every `i64` input (also out-of-range intermediate ones,
after their wrap-around). -/
lemma and64_mask (x : Int) {k : Nat} (hk : k ≤ 63) :
    and64 x (sub64 (shl64 1 k) 1) = x % 2 ^ k := by
  rw [mask_eq hk]
  have h2k : (0 : Int) < 2 ^ k := by positivity
  have hk63 : (2 : Int) ^ k ≤ 2 ^ 63 := pow_le_pow_right₀ (by norm_num) hk
  unfold and64
  have hmtn : toBits (2 ^ k - 1) = 2 ^ k - 1 := by
    rw [toBits_toNat (by omega) (by omega)]
    have h1 : (1 : Nat) ≤ 2 ^ k := Nat.one_le_two_pow
    have hc : ((2 ^ k - 1 : Nat) : Int) = (2 : Int) ^ k - 1 := by
      push_cast [h1]; ring
    rw [← hc, Int.toNat_natCast]
  rw [hmtn, Nat.and_pow_two_sub_one_eq_mod]
  have hklt : (2 : Nat) ^ k ≤ 2 ^ 63 := Nat.pow_le_pow_right (by norm_num) hk
  have hlt : toBits x % 2 ^ k < 2 ^ 63 :=
    lt_of_lt_of_le (Nat.mod_lt _ (by positivity)) (by omega)
  rw [ofBits_of_lt hlt]
  push_cast
  rw [toBits_cast_eq, Int.emod_emod_of_dvd _ (pow_dvd_pow 2 (by omega))]

/-- C10: with `worker_bits + sequence_bits < 63`, an in-range timestamp
delta and sequence, but a worker id that does not fit in `worker_bits`
(`worker_id ≥ 2 ^ worker_bits`, still a `u32`), composing and then
decomposing yields a worker component equal to `worker_id % 2 ^
worker_bits` — not the original worker id (the excess bits corrupt the
neighbouring field instead). The sequence component is still recovered
exactly. -/
theorem C10_out_of_range_worker_truncated
    (worker_id : Nat) (epoch : Int) (worker_bits sequence_bits : Nat)
    (t s : Int)
    (hbits : worker_bits + sequence_bits < 63)
    (hd0 : 0 ≤ t - epoch)
    (hd1 : t - epoch < 2 ^ (63 - (worker_bits + sequence_bits)))
    (hwbig : 2 ^ worker_bits ≤ worker_id) (hw32 : worker_id < 2 ^ 32)
    (hs0 : 0 ≤ s) (hs1 : s < 2 ^ sequence_bits) :
    ((SnowflakeGenerator.new worker_id epoch worker_bits
        sequence_bits).decompose
      ((SnowflakeGenerator.new worker_id epoch worker_bits
        sequence_bits).compose_id t s)).2.1
      = worker_id % 2 ^ worker_bits ∧
    ((SnowflakeGenerator.new worker_id epoch worker_bits
        sequence_bits).decompose
      ((SnowflakeGenerator.new worker_id epoch worker_bits
        sequence_bits).compose_id t s)).2.2 = s ∧
    worker_id % 2 ^ worker_bits ≠ worker_id := by
  set wb := worker_bits with hwbdef
  set sb := sequence_bits with hsbdef
  set A := wb + sb with hAdef
  set D := t - epoch with hDdef
  set W := worker_id with hWdef
  have hwblt : wb < 32 := by
    by_contra hcon
    push_neg at hcon
    have : (2 : Nat) ^ 32 ≤ 2 ^ wb := Nat.pow_le_pow_right (by norm_num) hcon
    omega
  have hApos : (0 : Int) < 2 ^ A := by positivity
  have hsbposI : (0 : Int) < 2 ^ sb := by positivity
  have hsbpos : (0 : Nat) < 2 ^ sb := by positivity
  have hA63 : (2 : Int) ^ A ≤ 2 ^ 63 :=
    pow_le_pow_right₀ (by norm_num) (by omega)
  have h2A : (2 : Int) ^ (63 - A) * 2 ^ A = 2 ^ 63 := by
    rw [← pow_add, Nat.sub_add_cancel (by omega)]
  have hDA : D * 2 ^ A < 2 ^ 63 := by
    calc D * 2 ^ A < 2 ^ (63 - A) * 2 ^ A := mul_lt_mul_of_pos_right hd1 hApos
    _ = 2 ^ 63 := h2A
  have hD63 : D < 2 ^ 63 := by
    have h1 : (2 : Int) ^ (63 - A) ≤ 2 ^ 63 :=
      pow_le_pow_right₀ (by norm_num) (by omega)
    omega
  have hsub : sub64 t epoch = D := sub64_eq (by omega) hD63
  have hshlD : shl64 D A = D * 2 ^ A := shl64_eq hd0 hDA
  have htX : toBits (D * 2 ^ A) = D.toNat * 2 ^ A := by
    rw [toBits_toNat (by positivity) (by omega)]
    have hc : D * 2 ^ A = ((D.toNat * 2 ^ A : Nat) : Int) := by
      push_cast [Int.toNat_of_nonneg hd0]; ring
    rw [hc, Int.toNat_natCast]
  have htY : toBits (shl64 (W : Int) sb) = (W * 2 ^ sb) % 2 ^ 64 := by
    unfold shl64
    have hWb : toBits (W : Int) = W := by
      rw [toBits_toNat (by positivity) (by exact_mod_cast (by omega : W < 2 ^ 64)),
        Int.toNat_natCast]
    rw [hWb, Nat.shiftLeft_eq]
    exact toBits_ofBits (Nat.mod_lt _ (by positivity))
  have htS : toBits s = s.toNat := by
    have hssmall : s < 2 ^ 64 := by
      have : (2 : Int) ^ sb ≤ 2 ^ 64 := pow_le_pow_right₀ (by norm_num) (by omega)
      omega
    exact toBits_toNat hs0 hssmall
  have hstn : s.toNat < 2 ^ sb := by
    have hcast : ((s.toNat : Nat) : Int) < (((2 : Nat) ^ sb : Nat) : Int) := by
      push_cast [Int.toNat_of_nonneg hs0]; omega
    exact_mod_cast hcast
  -- the composed bit pattern
  have hid : (SnowflakeGenerator.new W epoch wb sb).compose_id t s
      = ofBits ((toBits (D * 2 ^ A) ||| toBits (shl64 (W : Int) sb)) ||| s.toNat) := by
    show or64 (or64 (shl64 (sub64 t epoch) A) (shl64 (W : Int) sb)) s = _
    rw [hsub, hshlD]
    unfold or64
    rw [toBits_ofBits (Nat.or_lt_two_pow (toBits_lt _) (toBits_lt _)), htS]
  set pid : Nat := (toBits (D * 2 ^ A) ||| toBits (shl64 (W : Int) sb)) ||| s.toNat
    with hpid
  -- sequence component
  have hseqcomp : and64 (ofBits pid) (sub64 (shl64 1 sb) 1) = s := by
    rw [and64_mask _ (by omega), ofBits_emod (by omega)]
    have hnat : pid % 2 ^ sb = s.toNat := by
      rw [hpid, lor_mod_two_pow, lor_mod_two_pow, htX, htY]
      have e1 : D.toNat * 2 ^ A % 2 ^ sb = 0 := by
        have : D.toNat * 2 ^ A = (D.toNat * 2 ^ wb) * 2 ^ sb := by
          rw [hAdef, pow_add]; ring
        rw [this, Nat.mul_mod_left]
      have e2 : (W * 2 ^ sb) % 2 ^ 64 % 2 ^ sb = 0 := by
        rw [Nat.mod_mod_of_dvd _ (pow_dvd_pow 2 (by omega)), Nat.mul_mod_left]
      rw [e1, e2, Nat.mod_eq_of_lt hstn]
      simp
    rw [hnat, Int.toNat_of_nonneg hs0]
  -- worker component
  have hworkcomp :
      u32cast (and64 (shr64 (ofBits pid) sb) (sub64 (shl64 1 wb) 1))
        = W % 2 ^ wb := by
    rw [shr64_eq, and64_mask _ (by omega), ofBits_ediv_emod (by omega)]
    have hnat : pid / 2 ^ sb % 2 ^ wb = W % 2 ^ wb := by
      rw [hpid, lor_div_two_pow, lor_div_two_pow, htX, htY]
      have e1 : D.toNat * 2 ^ A / 2 ^ sb = D.toNat * 2 ^ wb := by
        have : D.toNat * 2 ^ A = (D.toNat * 2 ^ wb) * 2 ^ sb := by
          rw [hAdef, pow_add]; ring
        rw [this, Nat.mul_div_cancel _ hsbpos]
      have e2 : (W * 2 ^ sb) % 2 ^ 64 / 2 ^ sb = W % 2 ^ (64 - sb) := by
        have h64 : (2 : Nat) ^ 64 = 2 ^ (64 - sb) * 2 ^ sb := by
          rw [← pow_add, Nat.sub_add_cancel (by omega)]
        rw [h64, Nat.mul_mod_mul_right, Nat.mul_div_cancel _ hsbpos]
      have e3 : s.toNat / 2 ^ sb = 0 := Nat.div_eq_of_lt hstn
      rw [e1, e2, e3, lor_mod_two_pow, lor_mod_two_pow, Nat.mul_mod_left,
        Nat.mod_mod_of_dvd _ (pow_dvd_pow 2 (by omega))]
      simp
    rw [hnat]
    unfold u32cast
    have hlt32 : W % 2 ^ wb < 2 ^ 32 := by
      have h1 : W % 2 ^ wb < 2 ^ wb := Nat.mod_lt _ (by positivity)
      have h2 : (2 : Nat) ^ wb < 2 ^ 32 :=
        (Nat.pow_lt_pow_iff_right (by norm_num)).mpr hwblt
      omega
    have hc : ((W % 2 ^ wb : Nat) : Int) % (2 ^ 32 : Int)
        = ((W % 2 ^ wb : Nat) : Int) := by
      apply Int.emod_eq_of_lt (by positivity)
      exact_mod_cast hlt32
    rw [hc, Int.toNat_natCast]
  have hneq : W % 2 ^ wb ≠ W := by
    have h1 : W % 2 ^ wb < 2 ^ wb := Nat.mod_lt _ (by positivity)
    omega
  refine ⟨?_, ?_, hneq⟩
  · show u32cast (and64 (shr64 ((SnowflakeGenerator.new W epoch wb
        sb).compose_id t s) sb) (sub64 (shl64 1 wb) 1)) = W % 2 ^ wb
    rw [hid]
    exact hworkcomp
  · show and64 ((SnowflakeGenerator.new W epoch wb sb).compose_id t s)
        (sub64 (shl64 1 sb) 1) = s
    rw [hid]
    exact hseqcomp

/-- Witness for C10: worker id 5 does not fit in 2 worker bits; the
decomposed worker component is `5 % 4 = 1`. -/
theorem C10_out_of_range_worker_truncated_witness :
    ((SnowflakeGenerator.new 5 0 2 3).decompose
      ((SnowflakeGenerator.new 5 0 2 3).compose_id 10 4)).2.1 = 5 % 2 ^ 2 ∧
    ((SnowflakeGenerator.new 5 0 2 3).decompose
      ((SnowflakeGenerator.new 5 0 2 3).compose_id 10 4)).2.2 = 4 ∧
    (5 : Nat) % 2 ^ 2 ≠ 5 :=
  C10_out_of_range_worker_truncated 5 0 2 3 10 4 (by norm_num) (by norm_num)
    (by norm_num) (by norm_num) (by norm_num) (by norm_num) (by norm_num)

/-- Strict monotonicity of composition in the lexicographic order of
`(timestamp, sequence)`, on in-range fields. -/
lemma compose_lt (g : SnowflakeGenerator) {t1 s1 t2 s2 : Int}
    (hbits : g.worker_bits + g.sequence_bits ≤ 63)
    (hw : g.worker_id < 2 ^ g.worker_bits)
    (h1d0 : 0 ≤ t1 - g.epoch)
    (h1d1 : t1 - g.epoch < 2 ^ (63 - (g.worker_bits + g.sequence_bits)))
    (h1s0 : 0 ≤ s1) (h1s1 : s1 < 2 ^ g.sequence_bits)
    (h2d0 : 0 ≤ t2 - g.epoch)
    (h2d1 : t2 - g.epoch < 2 ^ (63 - (g.worker_bits + g.sequence_bits)))
    (h2s0 : 0 ≤ s2) (h2s1 : s2 < 2 ^ g.sequence_bits)
    (hlex : t1 < t2 ∨ (t1 = t2 ∧ s1 < s2)) :
    g.compose_id t1 s1 < g.compose_id t2 s2 := by
  rw [compose_arith g hbits h1d0 h1d1 hw h1s0 h1s1,
    compose_arith g hbits h2d0 h2d1 hw h2s0 h2s1]
  set wb := g.worker_bits
  set sb := g.sequence_bits
  set A := wb + sb
  have hApos : (0 : Int) < 2 ^ A := by positivity
  have hsbpos : (0 : Int) < 2 ^ sb := by positivity
  have hwInt : (g.worker_id : Int) < 2 ^ wb := by exact_mod_cast hw
  have hW0 : (0 : Int) ≤ (g.worker_id : Int) := by positivity
  rcases hlex with hlt | ⟨heq, hslt⟩
  · have hup : (g.worker_id : Int) * 2 ^ sb + s1 < 2 ^ A := by
      have e1 : ((g.worker_id : Int) + 1) * 2 ^ sb ≤ 2 ^ wb * 2 ^ sb :=
        mul_le_mul_of_nonneg_right (by omega) (le_of_lt hsbpos)
      rw [← pow_add] at e1
      nlinarith
    have hstep : (t1 - g.epoch + 1) * 2 ^ A ≤ (t2 - g.epoch) * 2 ^ A :=
      mul_le_mul_of_nonneg_right (by omega) (le_of_lt hApos)
    have hW2 : 0 ≤ (g.worker_id : Int) * 2 ^ sb := by positivity
    nlinarith
  · rw [heq]
    omega

/-! Error behaviour of the sequential `next_id` model (claim C3). -/

lemma wait_next_millis_error_kind (clock : Clock) (ts : Int) :
    ∀ fuel k e k1, wait_next_millis clock ts k fuel = some (.error e, k1) →
      e = Error.ClockMovedBackwards := by
  intro fuel
  induction fuel with
  | zero =>
    intro k e k1 h
    simp [wait_next_millis] at h
  | succ n ih =>
    intro k e k1 h
    rw [wait_next_millis] at h
    cases hc : clock k with
    | none =>
      simp [current_timestamp, hc] at h
      exact h.1.symm
    | some ts2 =>
      simp only [current_timestamp, hc] at h
      by_cases hgt : ts2 > ts
      · rw [if_pos hgt] at h
        simp at h
      · rw [if_neg hgt] at h
        exact ih (k + 1) e k1 h

lemma next_id_error_kind (g : SnowflakeGenerator) (clock : Clock) :
    ∀ fuel st k e st1 k1,
      next_id g clock fuel st k = some (.error e, st1, k1) →
      e = Error.ClockMovedBackwards := by
  intro fuel
  induction fuel with
  | zero =>
    intro st k e st1 k1 h
    simp [next_id] at h
  | succ n ih =>
    intro st k e st1 k1 h
    rw [next_id] at h
    cases hc : clock k with
    | none =>
      simp [current_timestamp, hc] at h
      exact h.1.symm
    | some t =>
      simp only [current_timestamp, hc] at h
      by_cases hlt : t < st.last_timestamp
      · rw [if_pos hlt] at h
        simp at h
        exact h.1.symm
      · rw [if_neg hlt] at h
        by_cases heq : t = st.last_timestamp
        · rw [if_pos heq] at h
          by_cases hseq : st.sequence ≤ g.max_sequence
          · rw [if_pos hseq] at h
            simp at h
          · rw [if_neg hseq] at h
            cases hw : wait_next_millis clock t (k + 1) n with
            | none => rw [hw] at h; simp at h
            | some r =>
              obtain ⟨er, kr⟩ := r
              cases er with
              | error e2 =>
                rw [hw] at h
                simp at h
                obtain ⟨he, -, -⟩ := h
                subst he
                exact wait_next_millis_error_kind clock t n (k + 1) e2 kr hw
              | ok ts2 =>
                rw [hw] at h
                exact ih _ _ e st1 k1 h
        · rw [if_neg heq] at h
          simp at h

/-- C3: `next_id` fails exactly with the clock-regression error: every
error it ever returns is `ClockMovedBackwards` (no other kind), and it
fails immediately — consuming exactly one clock reading, leaving the state
untouched, returning no ID — both when the time source cannot produce a
value (`none`, system time before 1970) and when the reading is strictly
below the stored `last_timestamp`. -/
theorem C3_clock_regression_error (g : SnowflakeGenerator) (clock : Clock) :
    (∀ fuel st k e st1 k1,
      next_id g clock fuel st k = some (.error e, st1, k1) →
      e = Error.ClockMovedBackwards)
    ∧ (∀ fuel st k, clock k = none →
        next_id g clock (fuel + 1) st k
          = some (.error Error.ClockMovedBackwards, st, k + 1))
    ∧ (∀ fuel st k t, clock k = some t → t < st.last_timestamp →
        next_id g clock (fuel + 1) st k
          = some (.error Error.ClockMovedBackwards, st, k + 1)) := by
  refine ⟨next_id_error_kind g clock, ?_, ?_⟩
  · intro fuel st k h
    rw [next_id]
    simp [current_timestamp, h]
  · intro fuel st k t h hlt
    rw [next_id]
    simp [current_timestamp, h, hlt]

/-- Witness for C3: a clock stuck before the stored `last_timestamp` makes
the very next call fail with `ClockMovedBackwards` without touching the
state. -/
theorem C3_clock_regression_error_witness :
    next_id (SnowflakeGenerator.new 1 0 10 12) (fun _ => some 3) 1
      { sequence := 4, last_timestamp := 9 } 0
      = some (.error Error.ClockMovedBackwards,
          { sequence := 4, last_timestamp := 9 }, 1) :=
  (C3_clock_regression_error (SnowflakeGenerator.new 1 0 10 12)
    (fun _ => some 3)).2.2 0 { sequence := 4, last_timestamp := 9 } 0 3
    rfl (by norm_num)

/-- Success post-condition of the sequential `next_id`: a successful call
returns the composition of a clock reading `t` and a sequence value
`0 ≤ s_val ≤ max_sequence`, and leaves the cells at `last_timestamp = t`,
`sequence = s_val + 1`. The fuel hypothesis bounds the growth of the
sequence cell, ruling out the astronomically remote wrap of `fetch_add`. -/
lemma next_id_ok_shape (g : SnowflakeGenerator) (clock : Clock)
    (hmax0 : 0 ≤ g.max_sequence) :
    ∀ (fuel : Nat) (st : GenState) (k : Nat) (id : Int) (st1 : GenState)
      (k1 : Nat),
      0 ≤ st.sequence → st.sequence + (fuel : Int) < 2 ^ 63 →
      next_id g clock fuel st k = some (.ok id, st1, k1) →
      ∃ t s_val,
        id = g.compose_id t s_val ∧
        st1.sequence = s_val + 1 ∧ st1.last_timestamp = t ∧
        0 ≤ s_val ∧ s_val ≤ g.max_sequence ∧
        st.last_timestamp ≤ t ∧
        (∃ j, clock j = some t) ∧
        st1.sequence ≤ st.sequence + (fuel : Int) := by
  intro fuel
  induction fuel with
  | zero =>
    intro st k id st1 k1 _ _ h
    simp [next_id] at h
  | succ n ih =>
    intro st k id st1 k1 hseq0 hwrap h
    rw [next_id] at h
    cases hc : clock k with
    | none => simp [current_timestamp, hc] at h
    | some t =>
      simp only [current_timestamp, hc] at h
      by_cases hlt : t < st.last_timestamp
      · rw [if_pos hlt] at h
        simp at h
      · rw [if_neg hlt] at h
        by_cases heq : t = st.last_timestamp
        · rw [if_pos heq] at h
          by_cases hle : st.sequence ≤ g.max_sequence
          · rw [if_pos hle] at h
            simp only [Option.some.injEq, Prod.mk.injEq, Except.ok.injEq] at h
            obtain ⟨hid, hst1, hk1⟩ := h
            have hadd : add64 st.sequence 1 = st.sequence + 1 :=
              add64_eq (by omega) (by omega)
            refine ⟨t, st.sequence, hid.symm, ?_, ?_, hseq0, hle,
              le_of_eq heq.symm, ⟨k, hc⟩, ?_⟩
            · rw [← hst1]
              exact hadd
            · rw [← hst1]
              exact heq.symm
            · rw [← hst1]
              show add64 st.sequence 1 ≤ st.sequence + ((n : Int) + 1)
              rw [hadd]
              omega
          · rw [if_neg hle] at h
            cases hwres : wait_next_millis clock t (k + 1) n with
            | none =>
              rw [hwres] at h
              simp at h
            | some r =>
              obtain ⟨er, kr⟩ := r
              cases er with
              | error e2 =>
                rw [hwres] at h
                simp at h
              | ok ts2 =>
                rw [hwres] at h
                have hadd : add64 st.sequence 1 = st.sequence + 1 :=
                  add64_eq (by omega) (by omega)
                have hst' : ({ st with sequence := add64 st.sequence 1 }
                    : GenState).sequence = st.sequence + 1 := hadd
                obtain ⟨t', s', hid, hs1, hl1, hs0, hsm, hlm, hj, hgrow⟩ :=
                  ih { st with sequence := add64 st.sequence 1 } kr id st1 k1
                    (by rw [hst']; omega) (by rw [hst']; omega) h
                refine ⟨t', s', hid, hs1, hl1, hs0, hsm, ?_, hj, ?_⟩
                · exact le_trans (le_refl _) hlm
                · rw [hst'] at hgrow
                  omega
        · rw [if_neg heq] at h
          simp only [Option.some.injEq, Prod.mk.injEq, Except.ok.injEq] at h
          obtain ⟨hid, hst1, hk1⟩ := h
          refine ⟨t, 0, hid.symm, ?_, ?_, le_refl 0, hmax0, by omega,
            ⟨k, hc⟩, ?_⟩
          · rw [← hst1]
            norm_num
          · rw [← hst1]
          · rw [← hst1]
            show (1 : Int) ≤ st.sequence + ((n : Int) + 1)
            omega

/-- The `last_timestamp` cell never decreases across a sequential
`next_id` call, whatever the outcome. -/
lemma next_id_last_mono (g : SnowflakeGenerator) (clock : Clock) :
    ∀ fuel st k r st1 k1,
      next_id g clock fuel st k = some (r, st1, k1) →
      st.last_timestamp ≤ st1.last_timestamp := by
  intro fuel
  induction fuel with
  | zero =>
    intro st k r st1 k1 h
    simp [next_id] at h
  | succ n ih =>
    intro st k r st1 k1 h
    rw [next_id] at h
    cases hc : clock k with
    | none =>
      simp [current_timestamp, hc] at h
      rw [← h.2.1]
    | some t =>
      simp only [current_timestamp, hc] at h
      by_cases hlt : t < st.last_timestamp
      · rw [if_pos hlt] at h
        simp at h
        rw [← h.2.1]
      · rw [if_neg hlt] at h
        by_cases heq : t = st.last_timestamp
        · rw [if_pos heq] at h
          by_cases hle : st.sequence ≤ g.max_sequence
          · rw [if_pos hle] at h
            simp only [Option.some.injEq, Prod.mk.injEq] at h
            rw [← h.2.1]
          · rw [if_neg hle] at h
            cases hwres : wait_next_millis clock t (k + 1) n with
            | none =>
              rw [hwres] at h
              simp at h
            | some rr =>
              obtain ⟨er, kr⟩ := rr
              cases er with
              | error e2 =>
                rw [hwres] at h
                simp only [Option.some.injEq, Prod.mk.injEq] at h
                rw [← h.2.1]
              | ok ts2 =>
                rw [hwres] at h
                exact ih { st with sequence := add64 st.sequence 1 } kr r st1 k1 h
        · rw [if_neg heq] at h
          simp only [Option.some.injEq, Prod.mk.injEq] at h
          rw [← h.2.1]
          show st.last_timestamp ≤ t
          omega

/-- Monotone continuation: from a state that dominates a previously
issued pair `(t1, s1)` — its `last_timestamp` is at least `t1`, and its
sequence cell is past `s1` whenever the millisecond is still `t1` — every
further successful sequential call returns an ID strictly greater than
the one composed from `(t1, s1)`. -/
lemma next_id_gt_continuation (g : SnowflakeGenerator) (clock : Clock)
    (hbits : g.worker_bits + g.sequence_bits ≤ 63)
    (hw : g.worker_id < 2 ^ g.worker_bits)
    (hmax : g.max_sequence = 2 ^ g.sequence_bits - 1)
    (Hclock : ∀ i t, clock i = some t →
      0 ≤ t - g.epoch ∧
      t - g.epoch < 2 ^ (63 - (g.worker_bits + g.sequence_bits)))
    (t1 s1 : Int)
    (h1d0 : 0 ≤ t1 - g.epoch)
    (h1d1 : t1 - g.epoch < 2 ^ (63 - (g.worker_bits + g.sequence_bits)))
    (h1s0 : 0 ≤ s1) (h1s1 : s1 < 2 ^ g.sequence_bits) :
    ∀ (fuel : Nat) (st : GenState) (k : Nat) (id2 : Int) (st2 : GenState)
      (k2 : Nat),
      0 ≤ st.sequence → st.sequence + (fuel : Int) < 2 ^ 63 →
      t1 ≤ st.last_timestamp →
      (st.last_timestamp = t1 → s1 < st.sequence) →
      next_id g clock fuel st k = some (.ok id2, st2, k2) →
      g.compose_id t1 s1 < id2 := by
  intro fuel
  induction fuel with
  | zero =>
    intro st k id2 st2 k2 _ _ _ _ h
    simp [next_id] at h
  | succ n ih =>
    intro st k id2 st2 k2 hs0 hwrap hlast hdom h
    rw [next_id] at h
    cases hc : clock k with
    | none => simp [current_timestamp, hc] at h
    | some t =>
      obtain ⟨htd0, htd1⟩ := Hclock k t hc
      simp only [current_timestamp, hc] at h
      by_cases hlt : t < st.last_timestamp
      · rw [if_pos hlt] at h
        simp at h
      · rw [if_neg hlt] at h
        by_cases heq : t = st.last_timestamp
        · rw [if_pos heq] at h
          by_cases hle : st.sequence ≤ g.max_sequence
          · rw [if_pos hle] at h
            simp only [Option.some.injEq, Prod.mk.injEq, Except.ok.injEq] at h
            obtain ⟨hid, -, -⟩ := h
            rw [← hid]
            have hs2lt : st.sequence < 2 ^ g.sequence_bits := by
              rw [hmax] at hle
              omega
            apply compose_lt g hbits hw h1d0 h1d1 h1s0 h1s1 htd0 htd1 hs0
              hs2lt
            rcases eq_or_lt_of_le hlast with heq1 | hlt1
            · right
              exact ⟨by omega, hdom heq1.symm⟩
            · left
              omega
          · rw [if_neg hle] at h
            cases hwres : wait_next_millis clock t (k + 1) n with
            | none =>
              rw [hwres] at h
              simp at h
            | some r =>
              obtain ⟨er, kr⟩ := r
              cases er with
              | error e2 =>
                rw [hwres] at h
                simp at h
              | ok ts2 =>
                rw [hwres] at h
                have hadd : add64 st.sequence 1 = st.sequence + 1 :=
                  add64_eq (by omega) (by omega)
                apply ih { st with sequence := add64 st.sequence 1 } kr id2
                  st2 k2 ?_ ?_ hlast ?_ h
                · show 0 ≤ add64 st.sequence 1
                  rw [hadd]
                  omega
                · show add64 st.sequence 1 + (n : Int) < 2 ^ 63
                  rw [hadd]
                  omega
                · intro hl
                  have := hdom hl
                  show s1 < add64 st.sequence 1
                  rw [hadd]
                  omega
        · rw [if_neg heq] at h
          simp only [Option.some.injEq, Prod.mk.injEq, Except.ok.injEq] at h
          obtain ⟨hid, -, -⟩ := h
          rw [← hid]
          apply compose_lt g hbits hw h1d0 h1d1 h1s0 h1s1 htd0 htd1
            (le_refl 0) (by positivity)
          left
          omega

/-- C6: for a single caller issuing `next_id` calls sequentially (the
second call starts from the final state of the first), every successful
call returns an ID strictly greater than the previous successful one,
provided the configured fields fit within 63 bits: the bit widths sum to
at most 63, the worker id fits its width, and every clock reading keeps
the timestamp delta inside its field. The fuel hypothesis bounds the
sequence-cell growth below the `i64` wrap. -/
theorem C6_local_monotonicity
    (worker_id : Nat) (epoch : Int) (worker_bits sequence_bits : Nat)
    (clock : Clock) (fuel1 fuel2 : Nat) (st0 st1 st2 : GenState)
    (k0 k1 k2 : Nat) (id1 id2 : Int)
    (hbits : worker_bits + sequence_bits ≤ 63)
    (hw : worker_id < 2 ^ worker_bits)
    (Hclock : ∀ i t, clock i = some t →
      0 ≤ t - epoch ∧ t - epoch < 2 ^ (63 - (worker_bits + sequence_bits)))
    (hs0 : 0 ≤ st0.sequence)
    (hwrap : st0.sequence + (fuel1 : Int) + (fuel2 : Int) < 2 ^ 63)
    (h1 : next_id (SnowflakeGenerator.new worker_id epoch worker_bits
      sequence_bits) clock fuel1 st0 k0 = some (.ok id1, st1, k1))
    (h2 : next_id (SnowflakeGenerator.new worker_id epoch worker_bits
      sequence_bits) clock fuel2 st1 k1 = some (.ok id2, st2, k2)) :
    id1 < id2 := by
  set g := SnowflakeGenerator.new worker_id epoch worker_bits sequence_bits
    with hg
  have hgwb : g.worker_bits = worker_bits := rfl
  have hgsb : g.sequence_bits = sequence_bits := rfl
  have hgw : g.worker_id = worker_id := rfl
  have hge : g.epoch = epoch := rfl
  have hmax : g.max_sequence = 2 ^ g.sequence_bits - 1 := by
    show sub64 (shl64 1 sequence_bits) 1 = _
    rw [mask_eq (by omega), hgsb]
  have hmax0 : 0 ≤ g.max_sequence := by
    rw [hmax]
    have : (0 : Int) < 2 ^ g.sequence_bits := by positivity
    omega
  obtain ⟨t1, s1, hid1, hseq1, hlast1, hs1lo, hs1hi, -, ⟨j, hj⟩, hgrow⟩ :=
    next_id_ok_shape g clock hmax0 fuel1 st0 k0 id1 st1 k1 hs0 (by omega) h1
  obtain ⟨ht1d0, ht1d1⟩ := Hclock j t1 hj
  have hs1lt : s1 < 2 ^ g.sequence_bits := by
    rw [hmax] at hs1hi
    omega
  rw [hid1]
  exact next_id_gt_continuation g clock hbits hw hmax Hclock t1 s1 ht1d0
    ht1d1 hs1lo hs1lt fuel2 st1 k1 id2 st2 k2 (by omega) (by omega)
    (le_of_eq hlast1.symm) (fun _ => by omega) h2

/-- Witness for C6: two sequential calls under a constant clock; the
first takes the new-millisecond branch, the second the same-millisecond
branch, and the second ID is strictly greater. -/
theorem C6_local_monotonicity_witness :
    (SnowflakeGenerator.new 1 0 10 12).compose_id 5 0
      < (SnowflakeGenerator.new 1 0 10 12).compose_id 5 1 :=
  C6_local_monotonicity 1 0 10 12 (fun _ => some 5) 1 1
    SnowflakeGenerator.initialState { sequence := 1, last_timestamp := 5 }
    { sequence := 2, last_timestamp := 5 } 0 1 2
    ((SnowflakeGenerator.new 1 0 10 12).compose_id 5 0)
    ((SnowflakeGenerator.new 1 0 10 12).compose_id 5 1)
    (by norm_num) (by norm_num)
    (fun i t h => by
      simp only [Option.some.injEq] at h
      subst h
      norm_num)
    (by decide) (by decide) (by decide) (by decide)

/-- Counterexample for C9 as frozen: the sequence cell itself is not
bounded by the values representable in `sequence_bits`. With
`sequence_bits = 1` (`max_sequence = 1`), a run from the initial state
under a constant clock reaches, after a same-millisecond step that is not
a millisecond-boundary reset, a sequence cell holding `2 > 2 ^ 1 - 1`. -/
theorem C9_counterexample_sequence_cell_overflow :
    next_id (SnowflakeGenerator.new 0 0 10 1) (fun _ => some 7) 1
      SnowflakeGenerator.initialState 0
      = some (.ok ((SnowflakeGenerator.new 0 0 10 1).compose_id 7 0),
          { sequence := 1, last_timestamp := 7 }, 1)
    ∧ next_id (SnowflakeGenerator.new 0 0 10 1) (fun _ => some 7) 1
      { sequence := 1, last_timestamp := 7 } 1
      = some (.ok ((SnowflakeGenerator.new 0 0 10 1).compose_id 7 1),
          { sequence := 2, last_timestamp := 7 }, 2)
    ∧ (SnowflakeGenerator.new 0 0 10 1).max_sequence = 2 ^ 1 - 1
    ∧ ¬ ((2 : Int) ≤ 2 ^ 1 - 1) := by
  refine ⟨by decide, by decide, by decide, by decide⟩

/-- C9 (amended): the two state cells start at zero; `last_timestamp`
never decreases across `next_id` calls; every issued ID carries a
sequence value in `[0, max_sequence]` and leaves the cells at
`(sequence value + 1, its millisecond)`; and at each millisecond boundary
(a reading strictly above the stored `last_timestamp`) the sequence cell
is reset to 1 with sequence value 0 issued. The sequence cell itself may
transiently exceed `2 ^ sequence_bits - 1` outside resets (see the
counterexample), so only the issued values are bounded by the width. -/
theorem C9_state_cells_invariants
    (worker_id : Nat) (epoch : Int) (worker_bits sequence_bits : Nat)
    (clock : Clock) (hsb : sequence_bits ≤ 63) :
    (SnowflakeGenerator.initialState.sequence = 0 ∧
      SnowflakeGenerator.initialState.last_timestamp = 0)
    ∧ (∀ fuel st k r st1 k1,
        next_id (SnowflakeGenerator.new worker_id epoch worker_bits
          sequence_bits) clock fuel st k = some (r, st1, k1) →
        st.last_timestamp ≤ st1.last_timestamp)
    ∧ (∀ (fuel : Nat) (st : GenState) (k : Nat) (id : Int)
        (st1 : GenState) (k1 : Nat),
        0 ≤ st.sequence → st.sequence + (fuel : Int) < 2 ^ 63 →
        next_id (SnowflakeGenerator.new worker_id epoch worker_bits
          sequence_bits) clock fuel st k = some (.ok id, st1, k1) →
        ∃ t s_val,
          id = (SnowflakeGenerator.new worker_id epoch worker_bits
            sequence_bits).compose_id t s_val ∧
          0 ≤ s_val ∧
          s_val ≤ (SnowflakeGenerator.new worker_id epoch worker_bits
            sequence_bits).max_sequence ∧
          st1.sequence = s_val + 1 ∧ st1.last_timestamp = t)
    ∧ (∀ fuel st k t, clock k = some t → st.last_timestamp < t →
        next_id (SnowflakeGenerator.new worker_id epoch worker_bits
          sequence_bits) clock (fuel + 1) st k
          = some (.ok ((SnowflakeGenerator.new worker_id epoch worker_bits
              sequence_bits).compose_id t 0),
            { sequence := 1, last_timestamp := t }, k + 1)) := by
  set g := SnowflakeGenerator.new worker_id epoch worker_bits sequence_bits
    with hg
  have hmax : g.max_sequence = 2 ^ g.sequence_bits - 1 := by
    show sub64 (shl64 1 sequence_bits) 1 = _
    rw [mask_eq (by omega)]
    rfl
  have hmax0 : 0 ≤ g.max_sequence := by
    rw [hmax]
    have : (0 : Int) < 2 ^ g.sequence_bits := by positivity
    omega
  refine ⟨⟨rfl, rfl⟩, next_id_last_mono g clock, ?_, ?_⟩
  · intro fuel st k id st1 k1 h0 hw h
    obtain ⟨t, s_val, hid, hseq, hlast, hs0, hsm, -, -, -⟩ :=
      next_id_ok_shape g clock hmax0 fuel st k id st1 k1 h0 hw h
    exact ⟨t, s_val, hid, hs0, hsm, hseq, hlast⟩
  · intro fuel st k t hck hlt
    rw [next_id]
    have h1 : ¬ t < st.last_timestamp := by omega
    have h2 : ¬ t = st.last_timestamp := by omega
    simp [current_timestamp, hck, h1, h2]

/-- Witness for C9: the millisecond-boundary reset equation at a concrete
input — one call from the initial state under a clock reading 7 issues
sequence value 0 and resets the cell to 1. -/
theorem C9_state_cells_invariants_witness :
    next_id (SnowflakeGenerator.new 1 0 10 12) (fun _ => some 7) 1
      SnowflakeGenerator.initialState 0
      = some (.ok ((SnowflakeGenerator.new 1 0 10 12).compose_id 7 0),
          { sequence := 1, last_timestamp := 7 }, 1) :=
  (C9_state_cells_invariants 1 0 10 12 (fun _ => some 7)
    (by norm_num)).2.2.2 0 SnowflakeGenerator.initialState 0 7 rfl
    (by decide)

/-- The list `ids` is exactly the sequence of results of successive
successful `next_id` calls from state `st` at clock index `k`, ending in
state `st1` at clock index `k1`. -/
def IdChain (g : SnowflakeGenerator) (clock : Clock) (fuel : Nat) :
    GenState → Nat → List Int → GenState → Nat → Prop
  | st, k, [], st1, k1 => st1 = st ∧ k1 = k
  | st, k, id :: rest, st1, k1 =>
    ∃ stm km, next_id g clock fuel st k = some (.ok id, stm, km) ∧
      IdChain g clock fuel stm km rest st1 k1

/-- C7: `next_ids count` fails or succeeds as a whole call. On success it
returns exactly `count` IDs, which are precisely the results of `count`
successive `next_id` calls in issuance order. On failure the error is the
one returned by the first failing underlying `next_id` call, and the IDs
already produced before it are discarded (the error result carries no
IDs); conversely, whenever some underlying call within the first `count`
fails, the whole `next_ids` call returns exactly that error. -/
theorem C7_next_ids_batch (g : SnowflakeGenerator) (clock : Clock)
    (fuel : Nat) :
    (∀ count st k l st1 k1,
      next_ids g clock fuel count st k = some (.ok l, st1, k1) →
      l.length = count ∧ IdChain g clock fuel st k l st1 k1)
    ∧ (∀ count st k e st1 k1,
      next_ids g clock fuel count st k = some (.error e, st1, k1) →
      ∃ l stm km, IdChain g clock fuel st k l stm km ∧ l.length < count ∧
        next_id g clock fuel stm km = some (.error e, st1, k1))
    ∧ (∀ (l : List Int) (count : Nat) (st : GenState) (k : Nat)
        (stm : GenState) (km : Nat) (e : Error) (st1 : GenState) (k1 : Nat),
      IdChain g clock fuel st k l stm km → l.length < count →
      next_id g clock fuel stm km = some (.error e, st1, k1) →
      next_ids g clock fuel count st k = some (.error e, st1, k1)) := by
  refine ⟨?_, ?_, ?_⟩
  · intro count
    induction count with
    | zero =>
      intro st k l st1 k1 h
      rw [next_ids] at h
      simp only [Option.some.injEq, Prod.mk.injEq, Except.ok.injEq] at h
      obtain ⟨hl, hst, hk⟩ := h
      subst hl
      exact ⟨rfl, hst.symm, hk.symm⟩
    | succ n ih =>
      intro st k l st1 k1 h
      rw [next_ids] at h
      cases hni : next_id g clock fuel st k with
      | none =>
        rw [hni] at h
        simp at h
      | some r =>
        obtain ⟨er, stm, km⟩ := r
        cases er with
        | error e =>
          rw [hni] at h
          simp at h
        | ok id =>
          simp only [hni] at h
          cases hrec : next_ids g clock fuel n stm km with
          | none =>
            rw [hrec] at h
            simp at h
          | some r2 =>
            obtain ⟨er2, st2, k2⟩ := r2
            cases er2 with
            | error e2 =>
              rw [hrec] at h
              simp at h
            | ok ids =>
              rw [hrec] at h
              simp only [Option.some.injEq, Prod.mk.injEq,
                Except.ok.injEq] at h
              obtain ⟨hl, hst, hk⟩ := h
              obtain ⟨hlen, hchain⟩ := ih stm km ids st2 k2 hrec
              subst hl
              refine ⟨by simp [hlen], stm, km, hni, ?_⟩
              rw [hst, hk] at hchain
              exact hchain
  · intro count
    induction count with
    | zero =>
      intro st k e st1 k1 h
      rw [next_ids] at h
      simp at h
    | succ n ih =>
      intro st k e st1 k1 h
      rw [next_ids] at h
      cases hni : next_id g clock fuel st k with
      | none =>
        rw [hni] at h
        simp at h
      | some r =>
        obtain ⟨er, stm, km⟩ := r
        cases er with
        | error e2 =>
          rw [hni] at h
          simp only [Option.some.injEq, Prod.mk.injEq,
            Except.error.injEq] at h
          obtain ⟨he, hst, hk⟩ := h
          subst he hst hk
          exact ⟨[], st, k, ⟨rfl, rfl⟩, by simp, hni⟩
        | ok id =>
          simp only [hni] at h
          cases hrec : next_ids g clock fuel n stm km with
          | none =>
            rw [hrec] at h
            simp at h
          | some r2 =>
            obtain ⟨er2, st2, k2⟩ := r2
            cases er2 with
            | error e2 =>
              rw [hrec] at h
              simp only [Option.some.injEq, Prod.mk.injEq,
                Except.error.injEq] at h
              obtain ⟨he, hst, hk⟩ := h
              rw [he, hst, hk] at hrec
              obtain ⟨l, stm2, km2, hchain, hlen, hfail⟩ :=
                ih stm km e st1 k1 hrec
              exact ⟨id :: l, stm2, km2, ⟨stm, km, hni, hchain⟩,
                by simp; omega, hfail⟩
            | ok ids =>
              rw [hrec] at h
              simp at h
  · intro l
    induction l with
    | nil =>
      intro count st k stm km e st1 k1 hchain hlen hfail
      obtain ⟨hst, hk⟩ := hchain
      subst hst hk
      cases count with
      | zero => simp at hlen
      | succ n =>
        rw [next_ids, hfail]
    | cons id rest ih =>
      intro count st k stm km e st1 k1 hchain hlen hfail
      obtain ⟨stm1, km1, hok, hchain1⟩ := hchain
      cases count with
      | zero => simp at hlen
      | succ n =>
        have hlen1 : rest.length < n := by
          simp at hlen
          omega
        rw [next_ids]
        simp only [hok]
        rw [ih n stm1 km1 stm km e st1 k1 hchain1 hlen1 hfail]

/-- Witness for C7: a batch of two IDs under a constant clock succeeds
with exactly two chained results in issuance order. -/
theorem C7_next_ids_batch_witness :
    ([(SnowflakeGenerator.new 1 0 10 12).compose_id 5 0,
      (SnowflakeGenerator.new 1 0 10 12).compose_id 5 1] : List Int).length
      = 2
    ∧ IdChain (SnowflakeGenerator.new 1 0 10 12) (fun _ => some 5) 1
      SnowflakeGenerator.initialState 0
      [(SnowflakeGenerator.new 1 0 10 12).compose_id 5 0,
        (SnowflakeGenerator.new 1 0 10 12).compose_id 5 1]
      { sequence := 2, last_timestamp := 5 } 2 :=
  (C7_next_ids_batch (SnowflakeGenerator.new 1 0 10 12) (fun _ => some 5)
    1).1 2 SnowflakeGenerator.initialState 0
    [(SnowflakeGenerator.new 1 0 10 12).compose_id 5 0,
      (SnowflakeGenerator.new 1 0 10 12).compose_id 5 1]
    { sequence := 2, last_timestamp := 5 } 2 (by decide)

/-- C4: in the interleaved model, when the clock value `t` equals the
loaded `last_timestamp`, the call proceeds to a single atomic fetch-add
step that captures the pre-increment sequence value `S` and leaves the
cell at `S + 1` (wrapping); if `S ≤ max_sequence` the call returns the ID
composed from `(t, S)`, otherwise it enters the spin-wait, whose steps
never modify either cell and which exits back to the top of the loop
exactly when the clock is strictly greater than `t`. -/
theorem C4_same_millisecond_fetch_add (g : SnowflakeGenerator)
    (c L S t : Int) :
    (t = L → threadStep g c L S (.loadL t) = (.fadd t, L, S))
    ∧ (S ≤ g.max_sequence →
        threadStep g c L S (.fadd t)
          = (.done (.ok (g.compose_id t S)), L, add64 S 1))
    ∧ (g.max_sequence < S →
        threadStep g c L S (.fadd t) = (.wait t, L, add64 S 1))
    ∧ threadStep g c L S (.wait t)
        = ((if t < c then .start else .wait t), L, S) := by
  refine ⟨?_, ?_, ?_, rfl⟩
  · intro h
    simp only [threadStep]
    rw [if_neg (by omega), if_pos h]
  · intro h
    simp only [threadStep]
    rw [if_pos h]
  · intro h
    simp only [threadStep]
    rw [if_neg (by omega)]

/-- Witness for C4 at a concrete configuration: the fetch-add step with
`S = 3 ≤ max_sequence` returns the ID composed from `(5, 3)` and bumps
the cell to 4. -/
theorem C4_same_millisecond_fetch_add_witness :
    threadStep (SnowflakeGenerator.new 1 0 10 12) 5 5 3 (.fadd 5)
      = (.done (.ok ((SnowflakeGenerator.new 1 0 10 12).compose_id 5 3)),
          5, add64 3 1) :=
  (C4_same_millisecond_fetch_add (SnowflakeGenerator.new 1 0 10 12)
    5 5 3 5).2.1 (by decide)

/-- C5: in the interleaved model, a compare-and-swap of `last_timestamp`
from the loaded value `L` to the clock value `t` succeeds exactly when the
cell still holds `L`; on success the cell becomes `t`, the thread then
stores 1 into the sequence cell in a separate step and returns the ID
composed with sequence value 0; on failure (the cell moved) nothing is
changed by that step and the thread restarts the loop. -/
theorem C5_new_millisecond_cas (g : SnowflakeGenerator)
    (c L S t Lv : Int) :
    (threadStep g c L S (.cas t L) = (.storeSeq t, t, S))
    ∧ (threadStep g c L S (.storeSeq t)
        = (.done (.ok (g.compose_id t 0)), L, 1))
    ∧ (L ≠ Lv → threadStep g c L S (.cas t Lv) = (.start, L, S)) := by
  refine ⟨?_, rfl, ?_⟩
  · simp [threadStep]
  · intro h
    simp only [threadStep]
    rw [if_neg h]

/-- Witness for C5: a CAS that loaded `last_timestamp = 0` but finds the
cell already advanced to 5 fails, changes nothing, and restarts. -/
theorem C5_new_millisecond_cas_witness :
    threadStep (SnowflakeGenerator.new 1 0 10 12) 6 5 1 (.cas 6 0)
      = (.start, 5, 1) :=
  (C5_new_millisecond_cas (SnowflakeGenerator.new 1 0 10 12) 6 5 1 6
    0).2.2 (by decide)

/-- C1 fails on the code: an interleaving of two concurrent `next_id`
callers in which both calls return the same ID. Thread 0 reads clock 5,
loads `last_timestamp = 0`, wins its CAS (the cell becomes 5) and is
preempted before its `sequence` store; thread 1 then runs its entire call
in the same millisecond, its fetch-add reading the stale sequence cell 0,
so it returns the ID composed from `(5, 0)`; thread 0 resumes and returns
the ID composed from `(5, 0)` as well. Both calls succeed with the value
20975616. -/
theorem C1_concurrent_duplicate_ids :
    (run (SnowflakeGenerator.new 1 0 10 12)
      { clock := 5, last := 0, seq := 0, threads := [.start, .start] }
      [.thr 0, .thr 0, .thr 0, .thr 1, .thr 1, .thr 1, .thr 0]).threads
      = [.done (.ok 20975616), .done (.ok 20975616)] := by
  decide

end Idbuilder
